import Mathlib

/-!
Verification of the configuration parse/edit engine of ssh-tui
(src/ssh_config.rs).  Rust strings are modelled as lists of characters
(`Str := List Char`); a file's content is modelled as its list of lines
(Rust reads the file with `contents.lines()` and writes each line back
followed by a newline, so the pure core of every `*_at_path` function is a
transformation of a line list).  Whitespace is ASCII whitespace, matching
the characters these config files actually contain.
-/

set_option maxHeartbeats 1000000

namespace SshTui

/-- Rust strings, modelled as lists of characters. -/
abbrev Str := List Char

/-- Rust str::trim_start. -/
def trimStart (s : Str) : Str := s.dropWhile Char.isWhitespace

/-- Rust str::trim_end. -/
def trimEnd (s : Str) : Str := (s.reverse.dropWhile Char.isWhitespace).reverse

/-- Rust str::trim. -/
def trim (s : Str) : Str := trimEnd (trimStart s)

/-- strip_inline_comment (src/ssh_config.rs:245): the slice of the line
before the first '#', the whole line when there is none. -/
def strip_inline_comment (s : Str) : Str := s.takeWhile (fun c => c ≠ '#')

/-- Negation of whitespace, used by splitWS. -/
def notWS (c : Char) : Bool := !c.isWhitespace

/-- Worker for splitWS, structurally recursive on a fuel bound so that it
reduces in the kernel; any fuel at least the string's length gives the
true result. -/
def splitWSFuel : Nat → Str → List Str
  | 0, _ => []
  | _ + 1, [] => []
  | fuel + 1, c :: cs =>
    if c.isWhitespace then splitWSFuel fuel cs
    else (c :: cs.takeWhile notWS) :: splitWSFuel fuel (cs.dropWhile notWS)

/-- Rust str::split_whitespace: the maximal whitespace-free words of the
string, in order. -/
def splitWS (s : Str) : List Str := splitWSFuel s.length s

/-- Rust slice join with a single space (parts.collect::<Vec<_>>().join(" ")). -/
def joinSpace (xs : List Str) : Str := List.intercalate [' '] xs

/-- Rust str::eq_ignore_ascii_case, via ASCII lowercasing of both sides. -/
def eqIgnoreAsciiCase (a b : Str) : Bool := a.map Char.toLower == b.map Char.toLower

/-- Numeric value of a digit string. -/
def digitsToNat (s : Str) : Nat := s.foldl (fun a c => a * 10 + (c.toNat - 48)) 0

/-- Rust str::parse::<u16>: an optional leading '+', then one or more ASCII
digits, value at most 65535 (checked arithmetic overflows exactly when the
denoted value exceeds 65535). -/
def parse_u16 (s : Str) : Option Nat :=
  let t := match s with
    | '+' :: rest => rest
    | _ => s
  if t.isEmpty then none
  else if t.all Char.isDigit then
    let n := digitsToNat t
    if n < 65536 then some n else none
  else none

/-- HostEntry (src/ssh_config.rs:8-17). -/
structure HostEntry where
  host : Str := []
  hostname : Str := []
  user : Str := []
  port : Str := []
  identity_file : Str := []
  proxy_command : Str := []
  extra : List Str := []
deriving Repr, DecidableEq, Inhabited

/-- HostEntry::validate (src/ssh_config.rs:20-41).  Checks run in source
order; the first failing check produces the error. -/
def validate (e : HostEntry) : Except String Unit :=
  if (trim e.host).isEmpty then .error "Host cannot be empty"
  else if e.host.contains '*' || e.host.contains '?' then
    .error "Host cannot contain wildcard characters"
  else if (trim e.hostname).isEmpty then .error "HostName cannot be empty"
  else if !(trim e.port).isEmpty then
    match parse_u16 (trim e.port) with
    | none => .error "Port must be a number between 1 and 65535"
    | some 0 => .error "Port must be greater than 0"
    | some _ => .ok ()
  else .ok ()

/-- State of the parser loop in load_host_entries_from_path
(src/ssh_config.rs:61-62): the emitted entries and the block being built. -/
structure ParseState where
  entries : List HostEntry
  current : Option HostEntry
deriving Repr, DecidableEq

/-- Pushing a line onto the extra lines of the open block, if any
(the if-let Some(entry) = current.as_mut() pattern). -/
def push_extra (cur : Option HostEntry) (l : Str) : Option HostEntry :=
  cur.map (fun e => { e with extra := e.extra ++ [l] })

/-- Closing the current block (src/ssh_config.rs:85-89 and 116-120): the
open entry is emitted when its host is non-empty. -/
def close_current (st : ParseState) : List HostEntry :=
  match st.current with
  | some e => if e.host.isEmpty then st.entries else st.entries ++ [e]
  | none => st.entries

/-- Field assignment for a recognized keyword, extra push otherwise
(src/ssh_config.rs:104-112).  The keyword is ASCII-lowercased and matched
against the five recognized names; any other keyword appends the raw line,
trimmed of trailing whitespace, to extra. -/
def set_field (e : HostEntry) (keyword value raw : Str) : HostEntry :=
  let k := keyword.map Char.toLower
  if k = "hostname".toList then { e with hostname := value }
  else if k = "user".toList then { e with user := value }
  else if k = "port".toList then { e with port := value }
  else if k = "identityfile".toList then { e with identity_file := value }
  else if k = "proxycommand".toList then { e with proxy_command := value }
  else { e with extra := e.extra ++ [trimEnd raw] }

/-- One iteration of the parser loop of load_host_entries_from_path
(src/ssh_config.rs:64-114) on one raw line. -/
def parse_step (st : ParseState) (raw : Str) : ParseState :=
  if (trimStart raw).head? = some '#' then
    { st with current := push_extra st.current (trimEnd raw) }
  else
    let line := trim (strip_inline_comment raw)
    if line.isEmpty then
      { st with current := push_extra st.current [] }
    else
      let parts := splitWS line
      let keyword := parts.headD []
      if eqIgnoreAsciiCase keyword ("host".toList) then
        let entries := close_current st
        match parts.tail.head? with
        | some host_name =>
          if host_name.contains '*' || host_name.contains '?' then
            { entries := entries, current := none }
          else
            { entries := entries, current := some { host := host_name } }
        | none => { entries := entries, current := none }
      else
        match st.current with
        | some e =>
          { st with current := some (set_field e keyword (joinSpace parts.tail) raw) }
        | none => st

/-- Pure core of load_host_entries_from_path (src/ssh_config.rs:53-123):
fold the loop body over the file's lines, then close the last block. -/
def parse_lines (lines : List Str) : List HostEntry :=
  let st := lines.foldl parse_step ⟨[], none⟩
  close_current st

/-- host_name_from_line (src/ssh_config.rs:284-298). -/
def host_name_from_line (line : Str) : Option Str :=
  let stripped := strip_inline_comment line
  let trimmed := trimStart stripped
  if trimmed.isEmpty then none
  else if trimmed.head? = some '#' then none
  else
    match splitWS trimmed with
    | [] => none
    | keyword :: rest =>
      if eqIgnoreAsciiCase keyword ("host".toList) then rest.head? else none

/-- Number of leading lines that are not host headers; the inner scan of
find_host_block (src/ssh_config.rs:306-311) advances over exactly these. -/
def count_to_header : List Str → Nat
  | [] => 0
  | l :: rest => if (host_name_from_line l).isSome then 0 else 1 + count_to_header rest

/-- End index reached by the inner scan of find_host_block starting at
index i: the first index at or after i holding a host header, or the
number of lines. -/
def block_end_from (lines : List Str) (i : Nat) : Nat :=
  i + count_to_header (lines.drop i)

/-- The loop of find_host_block (src/ssh_config.rs:300-321) from index i:
at a header line, scan to the block's end; return the span when the name
matches, otherwise continue at the block's end; at a non-header line,
advance by one.  Structurally recursive on a fuel bound so that it reduces
in the kernel; the index strictly increases on every iteration, so any
fuel exceeding the number of remaining lines gives the loop's true
result. -/
def find_host_block_fuel : Nat → List Str → Str → Nat → Option (Nat × Nat)
  | 0, _, _, _ => none
  | fuel + 1, lines, host, i =>
    if h : i < lines.length then
      match host_name_from_line lines[i] with
      | some name =>
        if name = host then some (i, block_end_from lines (i + 1))
        else find_host_block_fuel fuel lines host (block_end_from lines (i + 1))
      | none => find_host_block_fuel fuel lines host (i + 1)
    else none

/-- find_host_block (src/ssh_config.rs:300-321). -/
def find_host_block (lines : List Str) (host : Str) : Option (Nat × Nat) :=
  find_host_block_fuel (lines.length + 1) lines host 0

/-- Whether the last line of the list exists and is empty
(lines.last().map(|line| line.is_empty()).unwrap_or(false)). -/
def blank_at_end (ls : List Str) : Bool := (ls.getLast?.map List.isEmpty).getD false

/-- The recognized lines pushed by render_host_entry_lines before the extra
lines (src/ssh_config.rs:254-271): the Host line, then one line per
non-empty recognized field, in fixed order, with two-space indentation. -/
def recognized_lines (e : HostEntry) : List Str :=
  ["Host ".toList ++ trim e.host]
  ++ (if (trim e.hostname).isEmpty then [] else ["  HostName ".toList ++ trim e.hostname])
  ++ (if (trim e.user).isEmpty then [] else ["  User ".toList ++ trim e.user])
  ++ (if (trim e.port).isEmpty then [] else ["  Port ".toList ++ trim e.port])
  ++ (if (trim e.identity_file).isEmpty then [] else ["  IdentityFile ".toList ++ trim e.identity_file])
  ++ (if (trim e.proxy_command).isEmpty then [] else ["  ProxyCommand ".toList ++ trim e.proxy_command])

/-- render_host_entry_lines (src/ssh_config.rs:253-282): the recognized
lines, the extra lines verbatim, and a final blank line unless the last
line is already blank. -/
def render_host_entry_lines (e : HostEntry) : List Str :=
  let ls := recognized_lines e ++ e.extra
  if blank_at_end ls then ls else ls ++ [[]]

/-- append_block (src/ssh_config.rs:220-225). -/
def append_block (lines : List Str) (e : HostEntry) : List Str :=
  let base := if !lines.isEmpty && !blank_at_end lines then lines ++ [[]] else lines
  base ++ render_host_entry_lines e

/-- replace_block (src/ssh_config.rs:227-229): Vec::splice of the rendered
block over the span. -/
def replace_block (lines : List Str) (s e : Nat) (entry : HostEntry) : List Str :=
  lines.take s ++ render_host_entry_lines entry ++ lines.drop e

/-- remove_block (src/ssh_config.rs:231-243): drain the span, then remove
the blank lines now at the removal point, or, when the removal point is at
the end, the blank lines at the end. -/
def remove_block (lines : List Str) (s e : Nat) : List Str :=
  let pruned := lines.take s ++ lines.drop e
  if s < pruned.length then
    pruned.take s ++ (pruned.drop s).dropWhile List.isEmpty
  else
    (pruned.reverse.dropWhile List.isEmpty).reverse

/-- Pure core of add_host_entry_at_path (src/ssh_config.rs:130-140) over
the file's lines; an error result means the file is not written. -/
def add_host_entry_lines (lines : List Str) (entry : HostEntry) : Except String (List Str) :=
  match validate entry with
  | .error msg => .error msg
  | .ok _ =>
    match find_host_block lines entry.host with
    | some _ => .error ("Host '" ++ String.mk entry.host ++ "' already exists")
    | none => .ok (append_block lines entry)

/-- Pure core of upsert_host_entry_at_path (src/ssh_config.rs:147-158). -/
def upsert_host_entry_lines (lines : List Str) (entry : HostEntry) : Except String (List Str) :=
  match validate entry with
  | .error msg => .error msg
  | .ok _ =>
    match find_host_block lines entry.host with
    | some (s, e) => .ok (replace_block lines s e entry)
    | none => .ok (append_block lines entry)

/-- Pure core of update_host_entry_at_path (src/ssh_config.rs:165-176):
like upsert but the block is located by the original host name. -/
def update_host_entry_lines (lines : List Str) (original_host : Str) (entry : HostEntry) :
    Except String (List Str) :=
  match validate entry with
  | .error msg => .error msg
  | .ok _ =>
    match find_host_block lines original_host with
    | some (s, e) => .ok (replace_block lines s e entry)
    | none => .ok (append_block lines entry)

/-- Pure core of delete_host_entry_at_path (src/ssh_config.rs:183-192):
no validation; not-found is an error and nothing is written. -/
def delete_host_entry_lines (lines : List Str) (host : Str) : Except String (List Str) :=
  match find_host_block lines host with
  | some (s, e) => .ok (remove_block lines s e)
  | none => .error ("Host '" ++ String.mk host ++ "' not found")

/-- The host-header name at index i of the line list, none when the index
is out of range or the line is not a host header. -/
def headerOpt (lines : List Str) (i : Nat) : Option Str :=
  (lines[i]?).bind host_name_from_line

/-- Specification of a located block span, following the spec's words: the
span starts at the first host-header line whose name equals the searched
name, and extends up to but excluding the next host-header line or the end
of the file. -/
def FindSpec (lines : List Str) (host : Str) (s e : Nat) : Prop :=
  headerOpt lines s = some host
  ∧ (∀ j, j < s → headerOpt lines j ≠ some host)
  ∧ s < e ∧ e ≤ lines.length
  ∧ (∀ j, s < j → j < e → headerOpt lines j = none)
  ∧ (e = lines.length ∨ (headerOpt lines e).isSome = true)

/-- Whether the parser loop treats this raw line as a logical Host line:
not a comment line, logically non-empty, and its first token equals
"host" ignoring ASCII case. -/
def is_host_line (raw : Str) : Bool :=
  ((trimStart raw).head? != some '#')
  && !(trim (strip_inline_comment raw)).isEmpty
  && eqIgnoreAsciiCase ((splitWS (trim (strip_inline_comment raw))).headD []) ("host".toList)

/-- The argument token of a logical Host line: the second
whitespace-delimited token of the comment-stripped, trimmed line. -/
def host_arg (raw : Str) : Option Str :=
  (splitWS (trim (strip_inline_comment raw))).tail.head?

/-- The spec's condition for a Host line to be skipped by the parser: its
argument is absent, or contains a wildcard character. -/
def wildcard_or_absent (raw : Str) : Prop :=
  ∀ a, host_arg raw = some a → (a.contains '*' || a.contains '?') = true

/-- The effect of the parser loop's body on the open entry for a non-Host
line (src/ssh_config.rs:64-113 with the Host branch excluded): comment
lines and logically blank lines are pushed onto extra, and otherwise the
first token selects a field or the line is pushed onto extra. -/
def body_apply (e : HostEntry) (raw : Str) : HostEntry :=
  if (trimStart raw).head? = some '#' then { e with extra := e.extra ++ [trimEnd raw] }
  else
    let line := trim (strip_inline_comment raw)
    if line.isEmpty then { e with extra := e.extra ++ [[]] }
    else set_field e ((splitWS line).headD []) (joinSpace (splitWS line).tail) raw

/-- Classification of a non-Host body line: some extra line exactly when
the parser stores the line in the entry's extra sequence (a comment line,
a logically blank line, or an unrecognized keyword), and in that case the
stored text, which is the raw line trimmed of trailing whitespace. -/
def extra_of_line (raw : Str) : Option Str :=
  if (trimStart raw).head? = some '#' then some (trimEnd raw)
  else
    let line := trim (strip_inline_comment raw)
    if line.isEmpty then some []
    else
      let k := ((splitWS line).headD []).map Char.toLower
      if k = "hostname".toList ∨ k = "user".toList ∨ k = "port".toList
          ∨ k = "identityfile".toList ∨ k = "proxycommand".toList then none
      else some (trimEnd raw)

/-- The claim's validation-failure condition on an entry: empty host, a
wildcard character in the host, empty hostname, or a non-empty port that
does not parse as an integer in [1, 65535]. -/
def invalid_entry (e : HostEntry) : Prop :=
  (trim e.host).isEmpty = true
  ∨ e.host.contains '*' = true
  ∨ e.host.contains '?' = true
  ∨ (trim e.hostname).isEmpty = true
  ∨ ((trim e.port).isEmpty = false
      ∧ ¬ ∃ n, 1 ≤ n ∧ n ≤ 65535 ∧ parse_u16 (trim e.port) = some n)

/-- Number of trailing blank lines of a rendered block. -/
def trailing_blank_count (ls : List Str) : Nat :=
  (ls.reverse.takeWhile List.isEmpty).length

end SshTui

namespace SshTui

theorem splitWSFuel_eq_splitWS (f : Nat) (s : Str) (h : s.length ≤ f) :
    splitWSFuel f s = splitWS s := by
  induction f using Nat.strong_induction_on generalizing s with
  | _ f ih =>
    match f, s with
    | 0, [] => rfl
    | 0, c :: cs => simp at h
    | f + 1, [] => rfl
    | f + 1, c :: cs =>
      show splitWSFuel (f + 1) (c :: cs) = splitWSFuel (c :: cs).length (c :: cs)
      simp only [List.length_cons] at h ⊢
      simp only [splitWSFuel]
      by_cases hw : c.isWhitespace = true
      · simp only [hw, if_true]
        rw [ih f (Nat.lt_succ_self f) cs (by omega),
          ih cs.length (by omega) cs (Nat.le_refl _)]
      · simp only [hw, Bool.false_eq_true, if_false]
        rw [ih f (Nat.lt_succ_self f) (cs.dropWhile notWS)
            (Nat.le_trans ((List.dropWhile_sublist _).length_le) (by omega)),
          ih cs.length (by omega) (cs.dropWhile notWS)
            ((List.dropWhile_sublist _).length_le)]

theorem splitWS_nil : splitWS [] = [] := rfl

theorem splitWS_cons (c : Char) (cs : Str) :
    splitWS (c :: cs) = if c.isWhitespace then splitWS cs
      else (c :: cs.takeWhile notWS) :: splitWS (cs.dropWhile notWS) := by
  show splitWSFuel (c :: cs).length (c :: cs) = _
  simp only [List.length_cons, splitWSFuel]
  by_cases hw : c.isWhitespace = true
  · simp only [hw, if_true, splitWSFuel_eq_splitWS cs.length cs (Nat.le_refl _)]
  · simp only [hw, Bool.false_eq_true, if_false,
      splitWSFuel_eq_splitWS cs.length (cs.dropWhile notWS) ((List.dropWhile_sublist _).length_le)]

theorem takeWhile_append_all (p : Char → Bool) (xs ys : Str) (h : ∀ a ∈ xs, p a = true) :
    (xs ++ ys).takeWhile p = xs ++ ys.takeWhile p := by
  induction xs with
  | nil => rfl
  | cons a l ih =>
    simp only [List.cons_append, List.takeWhile_cons, h a (by simp), if_true]
    rw [ih (fun b hb => h b (by simp [hb]))]

theorem dropWhile_append_all (p : Char → Bool) (xs ys : Str) (h : ∀ a ∈ xs, p a = true) :
    (xs ++ ys).dropWhile p = ys.dropWhile p := by
  induction xs with
  | nil => rfl
  | cons a l ih =>
    simp only [List.cons_append, List.dropWhile_cons, h a (by simp), if_true]
    exact ih (fun b hb => h b (by simp [hb]))

theorem splitWS_first_word (w v : Str) (hw : w ≠ [])
    (hnws : ∀ c ∈ w, c.isWhitespace = false) :
    splitWS (w ++ ' ' :: v) = w :: splitWS v := by
  match w, hw with
  | c :: cs, _ =>
    rw [List.cons_append, splitWS_cons]
    have hc : c.isWhitespace = false := hnws c (by simp)
    have hcs : ∀ a ∈ cs, notWS a = true := by
      intro a ha; simp only [notWS, hnws a (by simp [ha]), Bool.not_false]
    have htw : (cs ++ ' ' :: v).takeWhile notWS = cs := by
      rw [takeWhile_append_all notWS cs _ hcs, List.takeWhile_cons]
      simp [notWS]
    have hdw : (cs ++ ' ' :: v).dropWhile notWS = ' ' :: v := by
      rw [dropWhile_append_all notWS cs _ hcs, List.dropWhile_cons]
      simp [notWS]
    rw [hc]
    simp only [Bool.false_eq_true, if_false, htw, hdw]
    rw [splitWS_cons]
    simp

theorem splitWS_single (w : Str) (hw : w ≠ [])
    (hnws : ∀ c ∈ w, c.isWhitespace = false) :
    splitWS w = [w] := by
  match w, hw with
  | c :: cs, _ =>
    rw [splitWS_cons]
    have hc : c.isWhitespace = false := hnws c (by simp)
    have hcs : ∀ a ∈ cs, notWS a = true := by
      intro a ha; simp only [notWS, hnws a (by simp [ha]), Bool.not_false]
    rw [hc]
    simp only [Bool.false_eq_true, if_false]
    rw [List.takeWhile_eq_self_iff.mpr hcs, List.dropWhile_eq_nil_iff.mpr hcs]
    rfl

theorem splitWSFuel_mem_ne_nil (f : Nat) : ∀ (s : Str), ∀ w ∈ splitWSFuel f s, w ≠ [] := by
  induction f with
  | zero => intro s w hw; simp [splitWSFuel] at hw
  | succ f ih =>
    intro s w hw
    match s with
    | [] => simp [splitWSFuel] at hw
    | c :: cs =>
      simp only [splitWSFuel] at hw
      by_cases hc : c.isWhitespace = true
      · rw [hc] at hw; simp at hw; exact ih cs w hw
      · rw [Bool.of_not_eq_true hc] at hw
        simp only [Bool.false_eq_true, if_false, List.mem_cons] at hw
        rcases hw with h1 | h2
        · simp [h1]
        · exact ih _ w h2

theorem splitWS_mem_ne_nil (s : Str) : ∀ w ∈ splitWS s, w ≠ [] :=
  splitWSFuel_mem_ne_nil s.length s

theorem dropWhile_ws_eq_self (s : Str) (h : ∀ c ∈ s, c.isWhitespace = false) :
    s.dropWhile Char.isWhitespace = s := by
  match s with
  | [] => rfl
  | c :: cs =>
    rw [List.dropWhile_cons, h c (by simp)]
    simp

theorem trim_all_nonws (s : Str) (h : ∀ c ∈ s, c.isWhitespace = false) :
    trim s = s := by
  unfold trim trimStart trimEnd
  rw [dropWhile_ws_eq_self s h, dropWhile_ws_eq_self s.reverse (by
    intro c hc; exact h c (List.mem_reverse.mp hc)), List.reverse_reverse]

theorem host_name_from_line_nil : host_name_from_line [] = none := rfl

theorem strip_inline_comment_cons_ne (c : Char) (cs : Str) (h : c ≠ '#') :
    strip_inline_comment (c :: cs) = c :: strip_inline_comment cs := by
  unfold strip_inline_comment
  rw [List.takeWhile_cons]
  simp [h]

theorem strip_inline_comment_append_ne (xs ys : Str) (h : ∀ c ∈ xs, c ≠ '#') :
    strip_inline_comment (xs ++ ys) = xs ++ strip_inline_comment ys := by
  unfold strip_inline_comment
  exact takeWhile_append_all _ xs ys (fun a ha => by simp [h a ha])

theorem host_name_from_line_header (host : Str) (h0 : host ≠ [])
    (hnws : ∀ c ∈ host, c.isWhitespace = false) (hhash : '#' ∉ host) :
    host_name_from_line ("Host ".toList ++ host) = some host := by
  show host_name_from_line ('H' :: 'o' :: 's' :: 't' :: ' ' :: host) = some host
  unfold host_name_from_line
  dsimp only []
  have h1 : strip_inline_comment ('H' :: 'o' :: 's' :: 't' :: ' ' :: host)
      = 'H' :: 'o' :: 's' :: 't' :: ' ' :: host := by
    rw [strip_inline_comment_cons_ne _ _ (by decide), strip_inline_comment_cons_ne _ _ (by decide),
      strip_inline_comment_cons_ne _ _ (by decide), strip_inline_comment_cons_ne _ _ (by decide),
      strip_inline_comment_cons_ne _ _ (by decide)]
    unfold strip_inline_comment
    rw [List.takeWhile_eq_self_iff.mpr (fun a ha => by simp; exact fun hc => hhash (hc ▸ ha))]
  rw [h1]
  have h2 : trimStart ('H' :: 'o' :: 's' :: 't' :: ' ' :: host)
      = 'H' :: 'o' :: 's' :: 't' :: ' ' :: host := by
    unfold trimStart
    rw [List.dropWhile_cons]
    simp
  rw [h2]
  have h3 : splitWS ('H' :: 'o' :: 's' :: 't' :: ' ' :: host)
      = ("Host".toList : Str) :: splitWS host := by
    show splitWS (("Host".toList : Str) ++ ' ' :: host) = ("Host".toList : Str) :: splitWS host
    exact splitWS_first_word _ _ (by decide) (by decide)
  simp only [List.isEmpty_cons, List.head?_cons, h3]
  rw [splitWS_single host h0 hnws]
  simp [eqIgnoreAsciiCase]

theorem host_name_from_line_indent (w v : Str) (hw : w ≠ [])
    (hnws : ∀ c ∈ w, c.isWhitespace = false) (hhash : ∀ c ∈ w, c ≠ '#')
    (hne : eqIgnoreAsciiCase w ("host".toList) = false) :
    host_name_from_line (' ' :: ' ' :: (w ++ ' ' :: v)) = none := by
  unfold host_name_from_line
  dsimp only []
  have h1 : strip_inline_comment (' ' :: ' ' :: (w ++ ' ' :: v))
      = ' ' :: ' ' :: (w ++ ' ' :: strip_inline_comment v) := by
    rw [strip_inline_comment_cons_ne _ _ (by decide), strip_inline_comment_cons_ne _ _ (by decide),
      strip_inline_comment_append_ne _ _ hhash, strip_inline_comment_cons_ne _ _ (by decide)]
  rw [h1]
  match w, hw with
  | c :: cs, _ =>
    have h2 : trimStart (' ' :: ' ' :: ((c :: cs) ++ ' ' :: strip_inline_comment v))
        = (c :: cs) ++ ' ' :: strip_inline_comment v := by
      unfold trimStart
      rw [List.dropWhile_cons]
      simp only [show (' '.isWhitespace) = true from rfl, if_true]
      rw [List.dropWhile_cons]
      simp only [show (' '.isWhitespace) = true from rfl, if_true]
      rw [List.cons_append, List.dropWhile_cons, hnws c (by simp)]
      simp
    rw [h2]
    rw [splitWS_first_word _ _ (by simp) hnws]
    have hch : c ≠ '#' := hhash c (by simp)
    simp only [List.cons_append, List.isEmpty_cons, List.head?_cons, hne]
    simp [hch]

theorem headerOpt_ge_len (lines : List Str) (j : Nat) (h : lines.length ≤ j) :
    headerOpt lines j = none := by
  unfold headerOpt
  rw [List.getElem?_eq_none h]
  rfl

theorem headerOpt_lt_len (lines : List Str) (j : Nat) (h : j < lines.length) :
    headerOpt lines j = host_name_from_line lines[j] := by
  unfold headerOpt
  rw [List.getElem?_eq_getElem h]
  rfl

theorem count_to_header_le (l : List Str) : count_to_header l ≤ l.length := by
  induction l with
  | nil => exact Nat.le_refl 0
  | cons a t ih =>
    unfold count_to_header
    by_cases h : (host_name_from_line a).isSome = true
    · simp [h]
    · simp only [h, Bool.false_eq_true, if_false, List.length_cons]
      omega

theorem count_to_header_spec (l : List Str) :
    (∀ j, j < count_to_header l → (l[j]?).bind host_name_from_line = none)
    ∧ (count_to_header l = l.length
        ∨ ((l[count_to_header l]?).bind host_name_from_line).isSome = true) := by
  induction l with
  | nil =>
    refine ⟨fun j hj => absurd hj (by simp [count_to_header]), Or.inl rfl⟩
  | cons a t ih =>
    unfold count_to_header
    by_cases h : (host_name_from_line a).isSome = true
    · refine ⟨fun j hj => by simp [h] at hj, Or.inr ?_⟩
      simp [h]
    · have ha : host_name_from_line a = none := by
        cases hv : host_name_from_line a with
        | none => rfl
        | some x => rw [hv] at h; simp at h
      simp only [h, Bool.false_eq_true, if_false]
      refine ⟨fun j hj => ?_, ?_⟩
      · match j with
        | 0 => simp [ha]
        | j + 1 =>
          rw [List.getElem?_cons_succ]
          exact ih.1 j (by omega)
      · rcases ih.2 with h1 | h2
        · left; simp [h1]; omega
        · right
          rw [Nat.add_comm 1 (count_to_header t), List.getElem?_cons_succ]
          exact h2

theorem block_end_ge (lines : List Str) (i : Nat) : i ≤ block_end_from lines i :=
  Nat.le_add_right ..

theorem block_end_le (lines : List Str) (i : Nat) (h : i ≤ lines.length) :
    block_end_from lines i ≤ lines.length := by
  unfold block_end_from
  have := count_to_header_le (lines.drop i)
  rw [List.length_drop] at this
  omega

theorem block_end_interior (lines : List Str) (i : Nat) :
    ∀ j, i ≤ j → j < block_end_from lines i → headerOpt lines j = none := by
  intro j h1 h2
  unfold block_end_from at h2
  have := (count_to_header_spec (lines.drop i)).1 (j - i) (by omega)
  rw [List.getElem?_drop, show i + (j - i) = j from by omega] at this
  exact this

theorem block_end_boundary (lines : List Str) (i : Nat) (hi : i ≤ lines.length) :
    block_end_from lines i = lines.length
    ∨ (headerOpt lines (block_end_from lines i)).isSome = true := by
  rcases (count_to_header_spec (lines.drop i)).2 with h1 | h2
  · left; unfold block_end_from; rw [h1, List.length_drop]; omega
  · right
    unfold headerOpt block_end_from
    rw [← List.getElem?_drop]
    exact h2

theorem find_fuel_some_spec :
    ∀ (fuel : Nat) (lines : List Str) (host : Str) (i s e : Nat),
      lines.length - i < fuel →
      find_host_block_fuel fuel lines host i = some (s, e) →
      i ≤ s ∧ headerOpt lines s = some host
      ∧ (∀ j, i ≤ j → j < s → headerOpt lines j ≠ some host)
      ∧ s < e ∧ e ≤ lines.length
      ∧ (∀ j, s < j → j < e → headerOpt lines j = none)
      ∧ (e = lines.length ∨ (headerOpt lines e).isSome = true) := by
  intro fuel
  induction fuel with
  | zero =>
    intro lines host i s e h hf
    exact absurd h (Nat.not_lt_zero _)
  | succ fuel ih =>
    intro lines host i s e h hf
    unfold find_host_block_fuel at hf
    by_cases hi : i < lines.length
    · rw [dif_pos hi] at hf
      cases hv : host_name_from_line lines[i] with
      | some name =>
        rw [hv] at hf
        dsimp only at hf
        by_cases hn : name = host
        · rw [if_pos hn] at hf
          injection hf with hf
          have hs : i = s := congrArg Prod.fst hf
          have he : block_end_from lines (i + 1) = e := congrArg Prod.snd hf
          subst hs
          subst he
          have hbe1 : i + 1 ≤ block_end_from lines (i + 1) := block_end_ge ..
          have hbe2 : block_end_from lines (i + 1) ≤ lines.length :=
            block_end_le _ _ (by omega)
          refine ⟨Nat.le_refl i, ?_, ?_, by omega, hbe2, ?_, ?_⟩
          · rw [headerOpt_lt_len lines i hi, hv, hn]
          · intro j hj1 hj2; omega
          · intro j hj1 hj2
            exact block_end_interior lines (i + 1) j (by omega) hj2
          · exact block_end_boundary lines (i + 1) (by omega)
        · rw [if_neg hn] at hf
          have hbe1 : i + 1 ≤ block_end_from lines (i + 1) := block_end_ge ..
          have this := ih lines host (block_end_from lines (i + 1)) s e (by omega) hf
          obtain ⟨ha1, ha2, ha3, ha4, ha5, ha6, ha7⟩ := this
          refine ⟨by omega, ha2, ?_, ha4, ha5, ha6, ha7⟩
          intro j hj1 hj2
          by_cases hjb : block_end_from lines (i + 1) ≤ j
          · exact ha3 j hjb hj2
          · by_cases hji : j = i
            · subst hji
              rw [headerOpt_lt_len lines j hi, hv]
              intro hcon
              exact hn (Option.some.injEq .. ▸ hcon)
            · rw [block_end_interior lines (i + 1) j (by omega) (by omega)]
              exact fun hcon => Option.noConfusion hcon
      | none =>
        rw [hv] at hf
        dsimp only at hf
        have this := ih lines host (i + 1) s e (by omega) hf
        obtain ⟨ha1, ha2, ha3, ha4, ha5, ha6, ha7⟩ := this
        refine ⟨by omega, ha2, ?_, ha4, ha5, ha6, ha7⟩
        intro j hj1 hj2
        by_cases hji : j = i
        · subst hji
          rw [headerOpt_lt_len lines j hi, hv]
          exact fun hcon => Option.noConfusion hcon
        · exact ha3 j (by omega) hj2
    · rw [dif_neg hi] at hf
      exact Option.noConfusion hf

theorem find_fuel_none_spec :
    ∀ (fuel : Nat) (lines : List Str) (host : Str) (i : Nat),
      lines.length - i < fuel →
      find_host_block_fuel fuel lines host i = none →
      ∀ j, i ≤ j → headerOpt lines j ≠ some host := by
  intro fuel
  induction fuel with
  | zero =>
    intro lines host i h hf
    exact absurd h (Nat.not_lt_zero _)
  | succ fuel ih =>
    intro lines host i h hf j hj
    unfold find_host_block_fuel at hf
    by_cases hi : i < lines.length
    · rw [dif_pos hi] at hf
      cases hv : host_name_from_line lines[i] with
      | some name =>
        rw [hv] at hf
        dsimp only at hf
        by_cases hn : name = host
        · rw [if_pos hn] at hf
          exact Option.noConfusion hf
        · rw [if_neg hn] at hf
          have hbe1 : i + 1 ≤ block_end_from lines (i + 1) := block_end_ge ..
          by_cases hjb : block_end_from lines (i + 1) ≤ j
          · exact ih lines host (block_end_from lines (i + 1)) (by omega) hf j hjb
          · by_cases hji : j = i
            · subst hji
              rw [headerOpt_lt_len lines j hi, hv]
              intro hcon
              exact hn (Option.some.injEq .. ▸ hcon)
            · rw [block_end_interior lines (i + 1) j (by omega) (by omega)]
              exact fun hcon => Option.noConfusion hcon
      | none =>
        rw [hv] at hf
        dsimp only at hf
        by_cases hji : j = i
        · subst hji
          rw [headerOpt_lt_len lines j hi, hv]
          exact fun hcon => Option.noConfusion hcon
        · exact ih lines host (i + 1) (by omega) hf j (by omega)
    · rw [dif_neg hi] at hf
      rw [headerOpt_ge_len lines j (by omega)]
      exact fun hcon => Option.noConfusion hcon

theorem find_some_spec (lines : List Str) (host : Str) (s e : Nat)
    (h : find_host_block lines host = some (s, e)) : FindSpec lines host s e := by
  have := find_fuel_some_spec (lines.length + 1) lines host 0 s e (by omega) h
  obtain ⟨_, h2, h3, h4, h5, h6, h7⟩ := this
  exact ⟨h2, fun j hj => h3 j (Nat.zero_le j) hj, h4, h5, h6, h7⟩

theorem find_none_spec (lines : List Str) (host : Str)
    (h : find_host_block lines host = none) :
    ∀ j, headerOpt lines j ≠ some host :=
  fun j => find_fuel_none_spec (lines.length + 1) lines host 0 (by omega) h j (Nat.zero_le j)

theorem find_spec_unique (lines : List Str) (host : Str) (s e s' e' : Nat)
    (h1 : FindSpec lines host s e) (h2 : FindSpec lines host s' e') :
    s = s' ∧ e = e' := by
  obtain ⟨a1, a2, a3, a4, a5, a6⟩ := h1
  obtain ⟨b1, b2, b3, b4, b5, b6⟩ := h2
  have hs : s = s' := by
    rcases Nat.lt_trichotomy s s' with h | h | h
    · exact absurd a1 (b2 s h)
    · exact h
    · exact absurd b1 (a2 s' h)
  subst hs
  refine ⟨rfl, ?_⟩
  rcases Nat.lt_trichotomy e e' with h | h | h
  · exfalso
    have hnone := b5 e a3 h
    rcases a6 with hl | hr
    · omega
    · rw [hnone] at hr; simp at hr
  · exact h
  · exfalso
    have hnone := a5 e' b3 h
    rcases b6 with hl | hr
    · omega
    · rw [hnone] at hr; simp at hr

theorem find_eq_some_iff (lines : List Str) (host : Str) (s e : Nat) :
    find_host_block lines host = some (s, e) ↔ FindSpec lines host s e := by
  constructor
  · exact find_some_spec lines host s e
  · intro hspec
    cases hcase : find_host_block lines host with
    | none => exact absurd hspec.1 (find_none_spec lines host hcase s)
    | some p =>
      obtain ⟨s', e'⟩ := p
      have hspec' := find_some_spec lines host s' e' hcase
      obtain ⟨hs, he⟩ := find_spec_unique lines host s' e' s e hspec' hspec
      rw [hs, he]

theorem find_eq_none_iff (lines : List Str) (host : Str) :
    find_host_block lines host = none ↔ ∀ j, headerOpt lines j ≠ some host := by
  constructor
  · exact find_none_spec lines host
  · intro hall
    cases hcase : find_host_block lines host with
    | none => rfl
    | some p =>
      obtain ⟨s', e'⟩ := p
      exact absurd (find_some_spec lines host s' e' hcase).1 (hall s')

theorem take_append_left (A B : List Str) (s : Nat) (h : A.length = s) :
    (A ++ B).take s = A := by
  subst h
  exact List.take_left ..

theorem drop_append_left (A B : List Str) (s : Nat) (h : A.length = s) :
    (A ++ B).drop s = B := by
  subst h
  exact List.drop_left ..

theorem take_prefix_len (lines : List Str) (s : Nat) (h : s ≤ lines.length) :
    (lines.take s).length = s := by
  rw [List.length_take]
  omega

theorem remove_block_small (lines : List Str) (s e : Nat) (hse : s ≤ e)
    (hel : e < lines.length) :
    remove_block lines s e = lines.take s ++ (lines.drop e).dropWhile List.isEmpty := by
  unfold remove_block
  have hsl : (lines.take s).length = s := take_prefix_len lines s (by omega)
  have hlen : (lines.take s ++ lines.drop e).length = s + (lines.length - e) := by
    rw [List.length_append, hsl, List.length_drop]
  rw [if_pos (by rw [hlen]; omega)]
  rw [take_append_left _ _ _ hsl, drop_append_left _ _ _ hsl]

theorem remove_block_at_end (lines : List Str) (s : Nat) :
    remove_block lines s lines.length
      = ((lines.take s).reverse.dropWhile List.isEmpty).reverse := by
  unfold remove_block
  rw [List.drop_length, List.append_nil]
  rw [if_neg (by rw [List.length_take]; omega)]

theorem remove_block_decomp (lines : List Str) (s e : Nat) (hse : s ≤ e)
    (hel : e ≤ lines.length) :
    ∃ pre suf dropped_before dropped_after,
      remove_block lines s e = pre ++ suf
      ∧ lines.take s = pre ++ dropped_before
      ∧ lines.drop e = dropped_after ++ suf
      ∧ (∀ l ∈ dropped_before, l.isEmpty = true)
      ∧ (∀ l ∈ dropped_after, l.isEmpty = true) := by
  by_cases hcase : e < lines.length
  · refine ⟨lines.take s, (lines.drop e).dropWhile List.isEmpty, [],
      (lines.drop e).takeWhile List.isEmpty, ?_, by simp, ?_, by simp, ?_⟩
    · exact remove_block_small lines s e hse hcase
    · exact (List.takeWhile_append_dropWhile ..).symm
    · intro l hl
      exact List.mem_takeWhile_imp hl
  · have he : e = lines.length := by omega
    subst he
    refine ⟨((lines.take s).reverse.dropWhile List.isEmpty).reverse, [],
      ((lines.take s).reverse.takeWhile List.isEmpty).reverse, [], ?_, ?_, by simp, ?_, by simp⟩
    · rw [List.append_nil]
      exact remove_block_at_end lines s
    · have hA := @List.takeWhile_append_dropWhile _ List.isEmpty (lines.take s).reverse
      calc lines.take s = ((lines.take s).reverse).reverse := (List.reverse_reverse _).symm
        _ = ((List.takeWhile List.isEmpty (lines.take s).reverse)
              ++ (List.dropWhile List.isEmpty (lines.take s).reverse)).reverse := by rw [hA]
        _ = _ := by rw [List.reverse_append]
    · intro l hl
      rw [List.mem_reverse] at hl
      exact List.mem_takeWhile_imp hl

/-- C4: find_host_block returns the span of the first host-header line whose
name compares equal, case-sensitively, to the searched name, the span
extending from that header up to but excluding the next host-header line or
the end of the file; it returns none exactly when no header's name matches. -/
theorem find_host_block_first_match (lines : List Str) (host : Str) (s e : Nat) :
    (find_host_block lines host = some (s, e) ↔ FindSpec lines host s e)
    ∧ (find_host_block lines host = none ↔ ∀ j, headerOpt lines j ≠ some host) :=
  ⟨find_eq_some_iff lines host s e, find_eq_none_iff lines host⟩

theorem find_host_block_first_match_witness :
    FindSpec ["Host a".toList, "  HostName h".toList] ("a".toList) 0 2 :=
  ((find_host_block_first_match ["Host a".toList, "  HostName h".toList]
      ("a".toList) 0 2).1).mp (by decide)

/-- C2: replacing a block located by find_host_block keeps every line before
the span's start and every line from its exclusive end unchanged, and
remove_block removes only the span's lines plus immediately adjacent blank
lines. -/
theorem block_edit_isolation (lines : List Str) (host : Str) (s e : Nat) (entry : HostEntry)
    (hf : find_host_block lines host = some (s, e)) :
    (replace_block lines s e entry).take s = lines.take s
    ∧ (replace_block lines s e entry).drop (s + (render_host_entry_lines entry).length)
        = lines.drop e
    ∧ ∃ pre suf dropped_before dropped_after,
        remove_block lines s e = pre ++ suf
        ∧ lines.take s = pre ++ dropped_before
        ∧ lines.drop e = dropped_after ++ suf
        ∧ (∀ l ∈ dropped_before, l.isEmpty = true)
        ∧ (∀ l ∈ dropped_after, l.isEmpty = true) := by
  have hspec := find_some_spec lines host s e hf
  have hse : s < e := hspec.2.2.1
  have hel : e ≤ lines.length := hspec.2.2.2.1
  have hsl : (lines.take s).length = s := take_prefix_len lines s (by omega)
  refine ⟨?_, ?_, ?_⟩
  · unfold replace_block
    rw [List.append_assoc]
    exact take_append_left _ _ _ hsl
  · unfold replace_block
    have hlen2 : (lines.take s ++ render_host_entry_lines entry).length
        = s + (render_host_entry_lines entry).length := by
      rw [List.length_append, hsl]
    exact drop_append_left _ _ _ hlen2
  · exact remove_block_decomp lines s e (by omega) hel

theorem block_edit_isolation_witness :
    (replace_block ["Host a".toList, "  HostName h".toList, [], "Host b".toList] 0 3
        { host := "x".toList }).take 0
      = (["Host a".toList, "  HostName h".toList, [], "Host b".toList] : List Str).take 0 :=
  (block_edit_isolation ["Host a".toList, "  HostName h".toList, [], "Host b".toList]
    ("a".toList) 0 3 { host := "x".toList } (by decide)).1

/-- C9: delete fails with a not-found error, writing nothing, when
find_host_block locates no block for the searched name; when a block is
found, its span is removed and adjacent blank lines are collapsed. -/
theorem delete_missing_fails (lines : List Str) (host : Str) :
    (find_host_block lines host = none →
      delete_host_entry_lines lines host
        = .error ("Host '" ++ String.mk host ++ "' not found"))
    ∧ (∀ s e, find_host_block lines host = some (s, e) →
        delete_host_entry_lines lines host = .ok (remove_block lines s e)
        ∧ ∃ pre suf dropped_before dropped_after,
            remove_block lines s e = pre ++ suf
            ∧ lines.take s = pre ++ dropped_before
            ∧ lines.drop e = dropped_after ++ suf
            ∧ (∀ l ∈ dropped_before, l.isEmpty = true)
            ∧ (∀ l ∈ dropped_after, l.isEmpty = true)) := by
  constructor
  · intro hn
    unfold delete_host_entry_lines
    rw [hn]
  · intro s e hf
    have hspec := find_some_spec lines host s e hf
    constructor
    · unfold delete_host_entry_lines
      rw [hf]
    · exact remove_block_decomp lines s e (by have := hspec.2.2.1; omega) hspec.2.2.2.1

theorem delete_missing_fails_witness :
    delete_host_entry_lines ["Host a".toList] ("missing".toList)
      = .error ("Host '" ++ String.mk ("missing".toList) ++ "' not found") :=
  (delete_missing_fails ["Host a".toList] ("missing".toList)).1 (by decide)

/-- C10: when the entry is valid, add fails with an already-exists error and
writes nothing whenever find_host_block locates a block named entry.host, and
otherwise appends the rendered block, preceded by one blank separator line
when the file is non-empty and does not end in a blank line. -/
theorem add_refuses_existing (lines : List Str) (e : HostEntry)
    (hv : validate e = .ok ()) :
    ((∃ s en, find_host_block lines e.host = some (s, en)) →
      add_host_entry_lines lines e
        = .error ("Host '" ++ String.mk e.host ++ "' already exists"))
    ∧ (find_host_block lines e.host = none →
        add_host_entry_lines lines e
          = .ok ((if !lines.isEmpty && !blank_at_end lines then lines ++ [[]] else lines)
              ++ render_host_entry_lines e)) := by
  constructor
  · rintro ⟨s, en, hf⟩
    unfold add_host_entry_lines
    rw [hv, hf]
  · intro hn
    unfold add_host_entry_lines
    rw [hv, hn]
    rfl

theorem add_refuses_existing_witness :
    add_host_entry_lines ["Host a".toList] { host := "a".toList, hostname := "h".toList }
      = .error ("Host '" ++ String.mk ("a".toList) ++ "' already exists") :=
  (add_refuses_existing ["Host a".toList] { host := "a".toList, hostname := "h".toList }
    (by rfl)).1 ⟨0, 1, by decide⟩

/-- C8 counterexample: rendering an entry whose extra lines end in two blank
lines yields a block ending in two trailing blank lines, not exactly one. -/
theorem render_two_trailing_blanks_counterexample :
    trailing_blank_count (render_host_entry_lines
      { host := "x".toList, hostname := "h".toList, extra := [[], []] }) ≠ 1 := by
  decide

/-- C8 (amended): render_host_entry_lines emits, in fixed order, the Host
line with the name trimmed, one line per recognized field non-empty after
trimming with two-space indentation and canonical capitalization, then every
extra line verbatim; the block ends with at least one trailing blank line, a
blank line being added only when the last emitted line is not already
blank. -/
theorem render_block_structure (e : HostEntry) :
    render_host_entry_lines e
      = ["Host ".toList ++ trim e.host]
        ++ (if (trim e.hostname).isEmpty then []
            else ["  HostName ".toList ++ trim e.hostname])
        ++ (if (trim e.user).isEmpty then [] else ["  User ".toList ++ trim e.user])
        ++ (if (trim e.port).isEmpty then [] else ["  Port ".toList ++ trim e.port])
        ++ (if (trim e.identity_file).isEmpty then []
            else ["  IdentityFile ".toList ++ trim e.identity_file])
        ++ (if (trim e.proxy_command).isEmpty then []
            else ["  ProxyCommand ".toList ++ trim e.proxy_command])
        ++ e.extra
        ++ (if blank_at_end (recognized_lines e ++ e.extra) then [] else [[]])
    ∧ blank_at_end (render_host_entry_lines e) = true := by
  constructor
  · show (if blank_at_end (recognized_lines e ++ e.extra)
        then recognized_lines e ++ e.extra
        else (recognized_lines e ++ e.extra) ++ [[]]) = _
    by_cases hb : blank_at_end (recognized_lines e ++ e.extra) = true
    · simp only [hb, if_true]
      simp [recognized_lines, List.append_assoc]
    · rw [if_neg hb, if_neg hb]
      simp [recognized_lines, List.append_assoc]
  · show blank_at_end (if blank_at_end (recognized_lines e ++ e.extra)
        then recognized_lines e ++ e.extra
        else (recognized_lines e ++ e.extra) ++ [[]]) = true
    by_cases hb : blank_at_end (recognized_lines e ++ e.extra) = true
    · rw [if_pos hb]
      exact hb
    · rw [if_neg hb]
      unfold blank_at_end
      rw [List.getLast?_concat]
      rfl

/-- C6 counterexample: when the searched name is the literal pattern, with a
star, find_host_block does match the wildcard block, and
delete_host_entry_lines, whose input is not validated, deletes it. -/
theorem find_wildcard_match_counterexample :
    find_host_block ["Host *".toList, "  Compression yes".toList] ("*".toList) = some (0, 2)
    ∧ delete_host_entry_lines ["Host *".toList, "  Compression yes".toList] ("*".toList)
      = .ok [] := by
  constructor
  · decide
  · rfl

theorem set_field_host (e : HostEntry) (k v r : Str) : (set_field e k v r).host = e.host := by
  unfold set_field
  dsimp only []
  repeat' split
  all_goals rfl

theorem parse_step_host_wildcard (es : List HostEntry) (cur : Option HostEntry) (raw : Str)
    (hh : is_host_line raw = true) (hw : wildcard_or_absent raw) :
    parse_step ⟨es, cur⟩ raw = ⟨close_current ⟨es, cur⟩, none⟩ := by
  unfold is_host_line at hh
  simp only [Bool.and_eq_true, bne_iff_ne, Bool.not_eq_true'] at hh
  obtain ⟨⟨h1, h2⟩, h3⟩ := hh
  unfold parse_step
  rw [if_neg h1]
  simp only [h2, Bool.false_eq_true, if_false, h3, if_true]
  cases harg : (splitWS (trim (strip_inline_comment raw))).tail.head? with
  | none => rfl
  | some a =>
    have hwa : (a.contains '*' || a.contains '?') = true := hw a harg
    dsimp only []
    rw [if_pos hwa]

theorem parse_step_no_host_none (es : List HostEntry) (raw : Str)
    (h : is_host_line raw = false) :
    parse_step ⟨es, none⟩ raw = ⟨es, none⟩ := by
  unfold is_host_line at h
  unfold parse_step
  by_cases h1 : (trimStart raw).head? = some '#'
  · rw [if_pos h1]; rfl
  · rw [if_neg h1]
    by_cases h2 : (trim (strip_inline_comment raw)).isEmpty = true
    · simp only [h2, if_true]; rfl
    · simp only [h2, Bool.false_eq_true, if_false]
      have h3 : eqIgnoreAsciiCase ((splitWS (trim (strip_inline_comment raw))).headD [])
          ("host".toList) = false := by
        have hb : ((trimStart raw).head? != some '#') = true := by
          simp [bne_iff_ne, h1]
        simp only [hb, Bool.of_not_eq_true h2, Bool.not_false, Bool.true_and] at h
        exact h
      simp only [h3, Bool.false_eq_true, if_false]

theorem parse_fold_none (es : List HostEntry) (body : List Str)
    (h : ∀ l ∈ body, is_host_line l = false) :
    body.foldl parse_step ⟨es, none⟩ = ⟨es, none⟩ := by
  induction body with
  | nil => rfl
  | cons a t ih =>
    rw [List.foldl_cons, parse_step_no_host_none es a (h a (by simp))]
    exact ih (fun l hl => h l (by simp [hl]))

/-- C5: on a logical Host line whose argument is absent or contains a
wildcard character, the parser closes and emits the current record, when its
name is non-empty, and sets the current record to none; and folding any
sequence of non-Host lines from the suppressed state leaves the state
unchanged, so the skipped block contributes no record and none of its body
lines are accumulated. -/
theorem wildcard_host_line_skipped (es : List HostEntry) (cur : Option HostEntry)
    (raw : Str) (body : List Str) :
    (is_host_line raw = true → wildcard_or_absent raw →
      parse_step ⟨es, cur⟩ raw = ⟨close_current ⟨es, cur⟩, none⟩)
    ∧ ((∀ l ∈ body, is_host_line l = false) →
      body.foldl parse_step ⟨es, none⟩ = ⟨es, none⟩) :=
  ⟨fun hh hw => parse_step_host_wildcard es cur raw hh hw,
   fun h => parse_fold_none es body h⟩

theorem wildcard_host_line_skipped_witness :
    parse_step ⟨[], some { host := "a".toList, hostname := "h".toList }⟩ ("Host *".toList)
      = ⟨close_current ⟨[], some { host := "a".toList, hostname := "h".toList }⟩, none⟩ :=
  (wildcard_host_line_skipped [] (some { host := "a".toList, hostname := "h".toList })
    ("Host *".toList) []).1 (by decide)
    (fun a ha => by
      have h0 : host_arg ("Host *".toList) = some ("*".toList) := by decide
      rw [h0] at ha
      cases ha
      decide)

theorem push_extra_host (cur : Option HostEntry) (l : Str) (c : HostEntry)
    (hc : push_extra cur l = some c) : ∃ c0, cur = some c0 ∧ c.host = c0.host := by
  cases cur with
  | none => exact Option.noConfusion hc
  | some c0 =>
    refine ⟨c0, rfl, ?_⟩
    unfold push_extra at hc
    injection hc with hc
    subst hc
    rfl

theorem parse_step_good (st : ParseState) (raw : Str)
    (h1 : ∀ e ∈ st.entries,
      e.host ≠ [] ∧ e.host.contains '*' = false ∧ e.host.contains '?' = false)
    (h2 : ∀ c, st.current = some c →
      c.host ≠ [] ∧ c.host.contains '*' = false ∧ c.host.contains '?' = false) :
    (∀ e ∈ (parse_step st raw).entries,
      e.host ≠ [] ∧ e.host.contains '*' = false ∧ e.host.contains '?' = false)
    ∧ (∀ c, (parse_step st raw).current = some c →
      c.host ≠ [] ∧ c.host.contains '*' = false ∧ c.host.contains '?' = false) := by
  have hclose : ∀ e ∈ close_current st,
      e.host ≠ [] ∧ e.host.contains '*' = false ∧ e.host.contains '?' = false := by
    unfold close_current
    cases hc : st.current with
    | none => exact h1
    | some c =>
      by_cases hce : c.host.isEmpty = true
      · simp only [hce, if_true]; exact h1
      · simp only [hce, Bool.false_eq_true, if_false]
        intro e he
        rcases List.mem_append.mp he with hin | hin
        · exact h1 e hin
        · rw [List.mem_singleton.mp hin]
          exact h2 c hc
  unfold parse_step
  by_cases hb1 : (trimStart raw).head? = some '#'
  · rw [if_pos hb1]
    refine ⟨h1, ?_⟩
    intro c hc
    obtain ⟨c0, hcur, hhost⟩ := push_extra_host st.current _ c hc
    have hp := h2 c0 hcur
    exact ⟨by rw [hhost]; exact hp.1, by rw [hhost]; exact hp.2.1, by rw [hhost]; exact hp.2.2⟩
  · rw [if_neg hb1]
    by_cases hb2 : (trim (strip_inline_comment raw)).isEmpty = true
    · simp only [hb2, if_true]
      refine ⟨h1, ?_⟩
      intro c hc
      obtain ⟨c0, hcur, hhost⟩ := push_extra_host st.current _ c hc
      have hp := h2 c0 hcur
      exact ⟨by rw [hhost]; exact hp.1, by rw [hhost]; exact hp.2.1, by rw [hhost]; exact hp.2.2⟩
    · simp only [hb2, Bool.false_eq_true, if_false]
      by_cases hb3 : eqIgnoreAsciiCase
          ((splitWS (trim (strip_inline_comment raw))).headD []) ("host".toList) = true
      · simp only [hb3, if_true]
        cases harg : (splitWS (trim (strip_inline_comment raw))).tail.head? with
        | none => exact ⟨hclose, fun c hc => Option.noConfusion hc⟩
        | some host_name =>
          dsimp only []
          by_cases hwc : (host_name.contains '*' || host_name.contains '?') = true
          · rw [if_pos hwc]
            exact ⟨hclose, fun c hc => Option.noConfusion hc⟩
          · rw [if_neg hwc]
            refine ⟨hclose, ?_⟩
            intro c hc
            cases hc
            have hmem : host_name ∈ splitWS (trim (strip_inline_comment raw)) := by
              cases hp : (splitWS (trim (strip_inline_comment raw))) with
              | nil => rw [hp] at harg; exact Option.noConfusion harg
              | cons p0 pt =>
                rw [hp] at harg
                simp only [List.tail_cons] at harg
                cases pt with
                | nil => exact Option.noConfusion harg
                | cons b t =>
                  simp only [List.head?_cons] at harg
                  cases harg
                  simp
            simp only [Bool.or_eq_true, not_or, Bool.not_eq_true] at hwc
            exact ⟨splitWS_mem_ne_nil _ _ hmem, hwc.1, hwc.2⟩
      · simp only [hb3, Bool.false_eq_true, if_false]
        cases hcur : st.current with
        | none => exact ⟨h1, h2⟩
        | some c0 =>
          refine ⟨h1, ?_⟩
          intro c hc
          cases hc
          rw [set_field_host]
          exact h2 c0 hcur

theorem parse_fold_good (body : List Str) : ∀ (st : ParseState),
    (∀ e ∈ st.entries,
      e.host ≠ [] ∧ e.host.contains '*' = false ∧ e.host.contains '?' = false) →
    (∀ c, st.current = some c →
      c.host ≠ [] ∧ c.host.contains '*' = false ∧ c.host.contains '?' = false) →
    (∀ e ∈ (body.foldl parse_step st).entries,
      e.host ≠ [] ∧ e.host.contains '*' = false ∧ e.host.contains '?' = false)
    ∧ (∀ c, (body.foldl parse_step st).current = some c →
      c.host ≠ [] ∧ c.host.contains '*' = false ∧ c.host.contains '?' = false) := by
  induction body with
  | nil => exact fun st h1 h2 => ⟨h1, h2⟩
  | cons a t ih =>
    intro st h1 h2
    rw [List.foldl_cons]
    have hstep := parse_step_good st a h1 h2
    exact ih (parse_step st a) hstep.1 hstep.2

theorem parse_lines_good (lines : List Str) :
    ∀ e ∈ parse_lines lines,
      e.host ≠ [] ∧ e.host.contains '*' = false ∧ e.host.contains '?' = false := by
  unfold parse_lines
  have hfold := parse_fold_good lines ⟨[], none⟩
    (by intro e he; simp at he) (by intro c hc; exact Option.noConfusion hc)
  intro e he
  dsimp only [] at he
  unfold close_current at he
  cases hcur : (lines.foldl parse_step ⟨[], none⟩).current with
  | none =>
    rw [hcur] at he
    exact hfold.1 e he
  | some c =>
    rw [hcur] at he
    dsimp only [] at he
    by_cases hce : c.host.isEmpty = true
    · rw [if_pos hce] at he
      exact hfold.1 e he
    · rw [if_neg hce] at he
      rcases List.mem_append.mp he with hin | hin
      · exact hfold.1 e hin
      · rw [List.mem_singleton.mp hin]
        exact hfold.2 c hcur

/-- C6 (amended): parsing never produces a record whose host is empty or
contains a wildcard character, in particular never a record for the star
pattern; and find_host_block returns only spans whose header name equals the
searched name, so the wildcard block is matched exactly when the searched
name is itself the literal pattern text, which delete_host_entry_at_path
permits since it does not validate its argument. -/
theorem wildcard_exclusion (lines : List Str) :
    (∀ e ∈ parse_lines lines,
      e.host ≠ [] ∧ e.host.contains '*' = false ∧ e.host.contains '?' = false)
    ∧ (∀ name s en, find_host_block lines name = some (s, en) →
        headerOpt lines s = some name) :=
  ⟨parse_lines_good lines,
   fun name s en hf => (find_some_spec lines name s en hf).1⟩

theorem wildcard_exclusion_witness :
    headerOpt ["Host b".toList] 0 = some ("b".toList) :=
  (wildcard_exclusion ["Host b".toList]).2 ("b".toList) 0 1 (by decide)

theorem parse_u16_le (s : Str) (n : Nat) (h : parse_u16 s = some n) : n ≤ 65535 := by
  unfold parse_u16 at h
  dsimp only [] at h
  split at h
  · exact Option.noConfusion h
  · split at h
    · split at h
      · injection h with h
        omega
      · exact Option.noConfusion h
    · exact Option.noConfusion h

theorem validate_error_of_invalid (e : HostEntry) (h : invalid_entry e) :
    ∃ m, validate e = .error m := by
  unfold validate
  by_cases h1 : (trim e.host).isEmpty = true
  · exact ⟨_, by rw [if_pos h1]⟩
  · rw [if_neg h1]
    by_cases h2 : (e.host.contains '*' || e.host.contains '?') = true
    · exact ⟨_, by rw [if_pos h2]⟩
    · rw [if_neg h2]
      by_cases h3 : (trim e.hostname).isEmpty = true
      · exact ⟨_, by rw [if_pos h3]⟩
      · rw [if_neg h3]
        simp only [Bool.or_eq_true, not_or, Bool.not_eq_true] at h2
        unfold invalid_entry at h
        rcases h with ha | hb | hc | hd | he
        · exact absurd ha h1
        · rw [h2.1] at hb
          exact absurd hb (by simp)
        · rw [h2.2] at hc
          exact absurd hc (by simp)
        · exact absurd hd h3
        · obtain ⟨hp1, hp2⟩ := he
          rw [if_pos (by rw [hp1]; rfl)]
          cases hp : parse_u16 (trim e.port) with
          | none => exact ⟨_, rfl⟩
          | some n =>
            match n with
            | 0 => exact ⟨_, rfl⟩
            | n + 1 =>
              exfalso
              exact hp2 ⟨n + 1, by omega, parse_u16_le _ _ hp, hp⟩

/-- C3: every write path, upsert, update and add, fails with a validation
error, leaving the file untouched, for every entry whose host is empty after
trimming or contains a wildcard character, whose hostname is empty after
trimming, or whose port is non-empty after trimming and does not parse as an
integer in one to 65535; entries with an empty port validate successfully
and their Port line is omitted from the rendered block. -/
theorem validation_gate (e : HostEntry) (lines : List Str) (orig : Str) :
    (invalid_entry e →
      (∃ m, upsert_host_entry_lines lines e = .error m)
      ∧ (∃ m, update_host_entry_lines lines orig e = .error m)
      ∧ (∃ m, add_host_entry_lines lines e = .error m))
    ∧ ((trim e.port).isEmpty = true →
        (trim e.host).isEmpty = false → e.host.contains '*' = false →
        e.host.contains '?' = false → (trim e.hostname).isEmpty = false →
        validate e = .ok ()
        ∧ render_host_entry_lines e = render_host_entry_lines { e with port := [] }) := by
  constructor
  · intro h
    obtain ⟨m, hm⟩ := validate_error_of_invalid e h
    refine ⟨⟨m, ?_⟩, ⟨m, ?_⟩, ⟨m, ?_⟩⟩
    · unfold upsert_host_entry_lines
      rw [hm]
    · unfold update_host_entry_lines
      rw [hm]
    · unfold add_host_entry_lines
      rw [hm]
  · intro hp hh hw1 hw2 hn
    constructor
    · have hcond : (e.host.contains '*' || e.host.contains '?') = false := by
        rw [hw1, hw2]; rfl
      unfold validate
      rw [if_neg (by simp [hh]), if_neg (by rw [hcond]; exact fun hx => Bool.noConfusion hx),
        if_neg (by simp [hn]), if_neg (by simp [hp])]
    · have hport2 : (trim (({ e with port := [] } : HostEntry).port)).isEmpty = true := rfl
      unfold render_host_entry_lines recognized_lines
      simp only [hp, hport2, if_true]

theorem validation_gate_witness :
    ∃ m, upsert_host_entry_lines []
      { host := "bad*name".toList, hostname := "h".toList } = .error m :=
  ((validation_gate { host := "bad*name".toList, hostname := "h".toList } [] []).1
    (Or.inr (Or.inl (by decide)))).1

theorem render_eq (e : HostEntry) :
    render_host_entry_lines e = recognized_lines e ++ e.extra
      ++ (if blank_at_end (recognized_lines e ++ e.extra) then [] else [[]]) := by
  unfold render_host_entry_lines
  by_cases hb : blank_at_end (recognized_lines e ++ e.extra) = true
  · rw [if_pos hb, if_pos hb, List.append_nil]
  · rw [if_neg hb, if_neg hb]

theorem parse_step_body (es : List HostEntry) (c : HostEntry) (raw : Str)
    (h : is_host_line raw = false) :
    parse_step ⟨es, some c⟩ raw = ⟨es, some (body_apply c raw)⟩ := by
  unfold parse_step body_apply
  by_cases h1 : (trimStart raw).head? = some '#'
  · rw [if_pos h1, if_pos h1]
    rfl
  · rw [if_neg h1, if_neg h1]
    by_cases h2 : (trim (strip_inline_comment raw)).isEmpty = true
    · simp only [h2, if_true]
      rfl
    · simp only [h2, Bool.false_eq_true, if_false]
      have h3 : eqIgnoreAsciiCase ((splitWS (trim (strip_inline_comment raw))).headD [])
          ("host".toList) = false := by
        unfold is_host_line at h
        have hb : ((trimStart raw).head? != some '#') = true := by
          simp [bne_iff_ne, h1]
        simp only [hb, Bool.of_not_eq_true h2, Bool.not_false, Bool.true_and] at h
        exact h
      simp only [h3, Bool.false_eq_true, if_false]

theorem body_apply_extra (c : HostEntry) (raw : Str) :
    (body_apply c raw).extra = c.extra ++ (extra_of_line raw).toList
    ∧ (body_apply c raw).host = c.host := by
  unfold body_apply extra_of_line
  by_cases h1 : (trimStart raw).head? = some '#'
  · rw [if_pos h1, if_pos h1]
    exact ⟨rfl, rfl⟩
  · rw [if_neg h1, if_neg h1]
    by_cases h2 : (trim (strip_inline_comment raw)).isEmpty = true
    · rw [if_pos h2, if_pos h2]
      exact ⟨rfl, rfl⟩
    · rw [if_neg h2, if_neg h2]
      unfold set_field
      dsimp only []
      by_cases k1 : ((splitWS (trim (strip_inline_comment raw))).headD []).map Char.toLower
          = "hostname".toList
      · rw [if_pos k1, if_pos (Or.inl k1)]
        exact ⟨(List.append_nil c.extra).symm, rfl⟩
      · rw [if_neg k1]
        by_cases k2 : ((splitWS (trim (strip_inline_comment raw))).headD []).map Char.toLower
            = "user".toList
        · rw [if_pos k2, if_pos (Or.inr (Or.inl k2))]
          exact ⟨(List.append_nil c.extra).symm, rfl⟩
        · rw [if_neg k2]
          by_cases k3 : ((splitWS (trim (strip_inline_comment raw))).headD []).map Char.toLower
              = "port".toList
          · rw [if_pos k3, if_pos (Or.inr (Or.inr (Or.inl k3)))]
            exact ⟨(List.append_nil c.extra).symm, rfl⟩
          · rw [if_neg k3]
            by_cases k4 : ((splitWS (trim (strip_inline_comment raw))).headD []).map Char.toLower
                = "identityfile".toList
            · rw [if_pos k4, if_pos (Or.inr (Or.inr (Or.inr (Or.inl k4))))]
              exact ⟨(List.append_nil c.extra).symm, rfl⟩
            · rw [if_neg k4]
              by_cases k5 : ((splitWS (trim (strip_inline_comment raw))).headD []).map Char.toLower
                  = "proxycommand".toList
              · rw [if_pos k5, if_pos (Or.inr (Or.inr (Or.inr (Or.inr k5))))]
                exact ⟨(List.append_nil c.extra).symm, rfl⟩
              · rw [if_neg k5, if_neg (by
                  intro hor
                  rcases hor with hx | hx | hx | hx | hx
                  · exact k1 hx
                  · exact k2 hx
                  · exact k3 hx
                  · exact k4 hx
                  · exact k5 hx)]
                exact ⟨rfl, rfl⟩

theorem parse_fold_body (body : List Str) : ∀ (es : List HostEntry) (c : HostEntry),
    (∀ l ∈ body, is_host_line l = false) →
    ∃ c2, body.foldl parse_step ⟨es, some c⟩ = ⟨es, some c2⟩
      ∧ c2.extra = c.extra ++ body.filterMap extra_of_line
      ∧ c2.host = c.host := by
  induction body with
  | nil => exact fun es c h => ⟨c, rfl, by simp, rfl⟩
  | cons a t ih =>
    intro es c h
    rw [List.foldl_cons, parse_step_body es c a (h a (by simp))]
    obtain ⟨c2, hf, he, hh⟩ := ih es (body_apply c a) (fun l hl => h l (by simp [hl]))
    refine ⟨c2, hf, ?_, ?_⟩
    · rw [he, (body_apply_extra c a).1]
      cases hcl : extra_of_line a with
      | none => simp [List.filterMap_cons, hcl]
      | some x => simp [List.filterMap_cons, hcl]
    · rw [hh, (body_apply_extra c a).2]

/-- C1: the parser stores each unrecognized body line, trimmed only of
trailing whitespace, in the open entry's extra sequence, in original order;
the renderer re-emits every extra line unchanged after the recognized
keyword lines; hence updating a block with the entry loaded from it writes
the entry's extra lines verbatim and in order as one contiguous segment of
the rewritten file. -/
theorem update_preserves_extra (body : List Str) (es : List HostEntry) (c : HostEntry)
    (lines : List Str) (orig : Str) (entry : HostEntry) (out : List Str) :
    ((∀ l ∈ body, is_host_line l = false) →
      ∃ c2, body.foldl parse_step ⟨es, some c⟩ = ⟨es, some c2⟩
        ∧ c2.extra = c.extra ++ body.filterMap extra_of_line
        ∧ c2.host = c.host)
    ∧ render_host_entry_lines entry
        = recognized_lines entry ++ entry.extra
          ++ (if blank_at_end (recognized_lines entry ++ entry.extra) then [] else [[]])
    ∧ (update_host_entry_lines lines orig entry = .ok out →
        ∃ A B, out = A ++ (entry.extra ++ B)) := by
  refine ⟨fun h => parse_fold_body body es c h, render_eq entry, ?_⟩
  intro h
  unfold update_host_entry_lines at h
  cases hv : validate entry with
  | error m =>
    rw [hv] at h
    exact Except.noConfusion h
  | ok u =>
    rw [hv] at h
    dsimp only [] at h
    cases hf : find_host_block lines orig with
    | some p =>
      obtain ⟨s, en⟩ := p
      rw [hf] at h
      injection h with h
      rw [← h]
      unfold replace_block
      rw [render_eq entry]
      refine ⟨lines.take s ++ recognized_lines entry,
        (if blank_at_end (recognized_lines entry ++ entry.extra) then [] else [[]])
          ++ lines.drop en, ?_⟩
      simp [List.append_assoc]
    | none =>
      rw [hf] at h
      injection h with h
      rw [← h]
      unfold append_block
      dsimp only []
      rw [render_eq entry]
      refine ⟨(if !lines.isEmpty && !blank_at_end lines then lines ++ [[]] else lines)
        ++ recognized_lines entry,
        (if blank_at_end (recognized_lines entry ++ entry.extra) then [] else [[]]), ?_⟩
      simp [List.append_assoc]

theorem update_preserves_extra_witness :
    ∃ A B, (["Host a".toList, "  HostName n".toList, "  Foo bar".toList, []] : List Str)
      = A ++ ((["  Foo bar".toList] : List Str) ++ B) :=
  (update_preserves_extra [] [] {} ["Host a".toList, "  HostName h".toList] ("a".toList)
    { host := "a".toList, hostname := "n".toList, extra := ["  Foo bar".toList] }
    ["Host a".toList, "  HostName n".toList, "  Foo bar".toList, []]).2.2 (by rfl)

theorem headerOpt_append_lt (A B : List Str) (j : Nat) (h : j < A.length) :
    headerOpt (A ++ B) j = headerOpt A j := by
  unfold headerOpt
  rw [List.getElem?_append, if_pos h]

theorem headerOpt_append_ge (A B : List Str) (j : Nat) (h : A.length ≤ j) :
    headerOpt (A ++ B) j = headerOpt B (j - A.length) := by
  unfold headerOpt
  rw [List.getElem?_append_right h]

theorem headerOpt_all_none (xs : List Str)
    (h : ∀ l ∈ xs, host_name_from_line l = none) (k : Nat) :
    headerOpt xs k = none := by
  unfold headerOpt
  cases hx : xs[k]? with
  | none => rfl
  | some l => exact h l (List.getElem?_mem hx)

theorem headerOpt_take_lt (lines : List Str) (s j : Nat) (h : j < s) :
    headerOpt (lines.take s) j = headerOpt lines j := by
  unfold headerOpt
  rw [List.getElem?_take, if_pos h]

theorem headerOpt_drop (lines : List Str) (en k : Nat) :
    headerOpt (lines.drop en) k = headerOpt lines (en + k) := by
  unfold headerOpt
  rw [List.getElem?_drop]

theorem field_not_header_hostname (v : Str) :
    host_name_from_line ("  HostName ".toList ++ v) = none := by
  show host_name_from_line (' ' :: ' ' :: ("HostName".toList ++ ' ' :: v)) = none
  exact host_name_from_line_indent _ _ (by decide) (by decide) (by decide) (by decide)

theorem field_not_header_user (v : Str) :
    host_name_from_line ("  User ".toList ++ v) = none := by
  show host_name_from_line (' ' :: ' ' :: ("User".toList ++ ' ' :: v)) = none
  exact host_name_from_line_indent _ _ (by decide) (by decide) (by decide) (by decide)

theorem field_not_header_port (v : Str) :
    host_name_from_line ("  Port ".toList ++ v) = none := by
  show host_name_from_line (' ' :: ' ' :: ("Port".toList ++ ' ' :: v)) = none
  exact host_name_from_line_indent _ _ (by decide) (by decide) (by decide) (by decide)

theorem field_not_header_identity (v : Str) :
    host_name_from_line ("  IdentityFile ".toList ++ v) = none := by
  show host_name_from_line (' ' :: ' ' :: ("IdentityFile".toList ++ ' ' :: v)) = none
  exact host_name_from_line_indent _ _ (by decide) (by decide) (by decide) (by decide)

theorem field_not_header_proxy (v : Str) :
    host_name_from_line ("  ProxyCommand ".toList ++ v) = none := by
  show host_name_from_line (' ' :: ' ' :: ("ProxyCommand".toList ++ ' ' :: v)) = none
  exact host_name_from_line_indent _ _ (by decide) (by decide) (by decide) (by decide)

theorem mem_if_singleton (P : Prop) [Decidable P] (x l : Str)
    (h : l ∈ (if P then ([] : List Str) else [x])) : l = x := by
  split at h
  · exact absurd h (List.not_mem_nil l)
  · exact List.mem_singleton.mp h

theorem render_head_tail (e : HostEntry)
    (hextra : ∀ l ∈ e.extra, host_name_from_line l = none) :
    ∃ rest, render_host_entry_lines e = ("Host ".toList ++ trim e.host) :: rest
      ∧ ∀ l ∈ rest, host_name_from_line l = none := by
  have hrec : recognized_lines e
      = ("Host ".toList ++ trim e.host)
        :: ((if (trim e.hostname).isEmpty then []
            else ["  HostName ".toList ++ trim e.hostname])
        ++ ((if (trim e.user).isEmpty then [] else ["  User ".toList ++ trim e.user])
        ++ ((if (trim e.port).isEmpty then [] else ["  Port ".toList ++ trim e.port])
        ++ ((if (trim e.identity_file).isEmpty then []
            else ["  IdentityFile ".toList ++ trim e.identity_file])
        ++ (if (trim e.proxy_command).isEmpty then []
            else ["  ProxyCommand ".toList ++ trim e.proxy_command]))))) := by
    unfold recognized_lines
    simp only [List.cons_append, List.nil_append, List.append_assoc]
  refine ⟨(if (trim e.hostname).isEmpty then []
        else ["  HostName ".toList ++ trim e.hostname])
      ++ ((if (trim e.user).isEmpty then [] else ["  User ".toList ++ trim e.user])
      ++ ((if (trim e.port).isEmpty then [] else ["  Port ".toList ++ trim e.port])
      ++ ((if (trim e.identity_file).isEmpty then []
          else ["  IdentityFile ".toList ++ trim e.identity_file])
      ++ ((if (trim e.proxy_command).isEmpty then []
          else ["  ProxyCommand ".toList ++ trim e.proxy_command])
      ++ (e.extra
      ++ (if blank_at_end (recognized_lines e ++ e.extra) then [] else [[]])))))), ?_, ?_⟩
  · rw [render_eq]
    nth_rewrite 1 [hrec]
    simp only [List.cons_append, List.append_assoc]
  · intro l hl
    simp only [List.mem_append] at hl
    rcases hl with h1 | h2 | h3 | h4 | h5 | h6 | h7
    · rw [mem_if_singleton _ _ l h1]
      exact field_not_header_hostname (trim e.hostname)
    · rw [mem_if_singleton _ _ l h2]
      exact field_not_header_user (trim e.user)
    · rw [mem_if_singleton _ _ l h3]
      exact field_not_header_port (trim e.port)
    · rw [mem_if_singleton _ _ l h4]
      exact field_not_header_identity (trim e.identity_file)
    · rw [mem_if_singleton _ _ l h5]
      exact field_not_header_proxy (trim e.proxy_command)
    · exact hextra l h6
    · have hlnil : l = [] := by
        revert h7
        split
        · intro h7
          exact absurd h7 (List.not_mem_nil l)
        · intro h7
          exact List.mem_singleton.mp h7
      rw [hlnil]
      exact host_name_from_line_nil

theorem validate_ok_host_nonempty (e : HostEntry) (hv : validate e = .ok ()) :
    (trim e.host).isEmpty = false := by
  unfold validate at hv
  by_cases h : (trim e.host).isEmpty = true
  · rw [if_pos h] at hv
    exact Except.noConfusion hv
  · exact Bool.of_not_eq_true h

theorem upsert_on_canonical (A B : List Str) (e : HostEntry) (hdr : Str) (rest : List Str)
    (hv : validate e = .ok ())
    (hA : ∀ j, headerOpt A j ≠ some e.host)
    (hhdr : host_name_from_line hdr = some e.host)
    (hrend : render_host_entry_lines e = hdr :: rest)
    (hrest : ∀ l ∈ rest, host_name_from_line l = none)
    (hB : B = [] ∨ (headerOpt B 0).isSome = true) :
    upsert_host_entry_lines (A ++ render_host_entry_lines e ++ B) e
      = .ok (A ++ render_host_entry_lines e ++ B) := by
  have hassoc : A ++ render_host_entry_lines e ++ B
      = A ++ (render_host_entry_lines e ++ B) := List.append_assoc ..
  have hrlen : (render_host_entry_lines e).length = rest.length + 1 := by
    rw [hrend]
    rfl
  have hfind : find_host_block (A ++ render_host_entry_lines e ++ B) e.host
      = some (A.length, A.length + (render_host_entry_lines e).length) := by
    apply (find_eq_some_iff ..).mpr
    refine ⟨?_, ?_, ?_, ?_, ?_, ?_⟩
    · rw [hassoc, headerOpt_append_ge A _ A.length (Nat.le_refl _), Nat.sub_self, hrend,
        List.cons_append]
      unfold headerOpt
      rw [List.getElem?_cons_zero]
      exact hhdr
    · intro j hj
      rw [hassoc, headerOpt_append_lt A _ j hj]
      exact hA j
    · omega
    · simp only [List.length_append]
      omega
    · intro j hj1 hj2
      rw [hassoc, headerOpt_append_ge A _ j (by omega)]
      rw [hrend, List.cons_append]
      have hk : j - A.length = (j - A.length - 1) + 1 := by omega
      rw [hk]
      unfold headerOpt
      rw [List.getElem?_cons_succ]
      have hklt : j - A.length - 1 < rest.length := by omega
      rw [List.getElem?_append, if_pos hklt]
      have := headerOpt_all_none rest hrest (j - A.length - 1)
      unfold headerOpt at this
      exact this
    · rcases hB with hB | hB
      · left
        subst hB
        simp only [List.length_append, List.length_nil]
        omega
      · right
        have hlen : (A ++ render_host_entry_lines e).length
            = A.length + (render_host_entry_lines e).length := List.length_append ..
        rw [headerOpt_append_ge (A ++ render_host_entry_lines e) B _ (by omega), hlen]
        rw [Nat.sub_self]
        exact hB
  unfold upsert_host_entry_lines
  rw [hv]
  dsimp only []
  rw [hfind]
  have hrepl : replace_block (A ++ render_host_entry_lines e ++ B) A.length
      (A.length + (render_host_entry_lines e).length) e
      = A ++ render_host_entry_lines e ++ B := by
    unfold replace_block
    have ht : (A ++ render_host_entry_lines e ++ B).take A.length = A := by
      rw [hassoc]
      exact take_append_left _ _ _ rfl
    have hd : (A ++ render_host_entry_lines e ++ B).drop
        (A.length + (render_host_entry_lines e).length) = B := by
      exact drop_append_left _ _ _ (List.length_append ..)
    rw [ht, hd]
  exact congrArg Except.ok hrepl

/-- C7 counterexample: upsert applied twice with the valid entry whose host
is " x" (leading space) is not the same as applying it once: on the empty
file the block is appended twice, because the rendered header carries the
trimmed name while the second find_host_block searches for the untrimmed
one. -/
theorem upsert_not_idempotent_counterexample :
    ((upsert_host_entry_lines [] { host := " x".toList, hostname := "h".toList }).bind
      (fun ls => upsert_host_entry_lines ls
        { host := " x".toList, hostname := "h".toList })).toOption
    ≠ (upsert_host_entry_lines []
        { host := " x".toList, hostname := "h".toList }).toOption := by
  decide

/-- C7 (amended): for every line sequence and every valid entry whose host
is identical to its trimmed form and a single token (no whitespace, no hash
character) and whose extra lines contain no host-header line, upsert is
idempotent: a second upsert of the same entry on the first upsert's output
locates exactly the rendered block and rewrites it identically, returning
the output unchanged. -/
theorem upsert_idempotent_amended (lines : List Str) (e : HostEntry) (out : List Str)
    (hv : validate e = .ok ())
    (hws : ∀ ch ∈ e.host, ch.isWhitespace = false)
    (hhash : '#' ∉ e.host)
    (hextra : ∀ l ∈ e.extra, host_name_from_line l = none)
    (hout : upsert_host_entry_lines lines e = .ok out) :
    upsert_host_entry_lines out e = .ok out := by
  have htr : trim e.host = e.host := trim_all_nonws e.host hws
  have hne : e.host ≠ [] := by
    have h0 := validate_ok_host_nonempty e hv
    rw [htr] at h0
    intro hc
    rw [hc] at h0
    exact Bool.noConfusion h0
  obtain ⟨rest, hrend, hrest⟩ := render_head_tail e hextra
  rw [htr] at hrend
  have hhdr : host_name_from_line ("Host ".toList ++ e.host) = some e.host :=
    host_name_from_line_header e.host hne hws hhash
  unfold upsert_host_entry_lines at hout
  rw [hv] at hout
  dsimp only [] at hout
  cases hf : find_host_block lines e.host with
  | some p =>
    obtain ⟨s, en⟩ := p
    rw [hf] at hout
    injection hout with hout
    have hspec := find_some_spec lines e.host s en hf
    have hsen : s < en := hspec.2.2.1
    have henl : en ≤ lines.length := hspec.2.2.2.1
    have hA : ∀ j, headerOpt (lines.take s) j ≠ some e.host := by
      intro j
      by_cases hj : j < s
      · rw [headerOpt_take_lt lines s j hj]
        exact hspec.2.1 j hj
      · rw [headerOpt_ge_len _ j (by rw [List.length_take]; omega)]
        exact fun hc => Option.noConfusion hc
    have hB : lines.drop en = [] ∨ (headerOpt (lines.drop en) 0).isSome = true := by
      rcases hspec.2.2.2.2.2 with h6 | h6
      · left
        rw [h6]
        exact List.drop_length lines
      · right
        rw [headerOpt_drop, Nat.add_zero]
        exact h6
    have := upsert_on_canonical (lines.take s) (lines.drop en) e
      ("Host ".toList ++ e.host) rest hv hA hhdr hrend hrest hB
    rw [← hout]
    unfold replace_block
    exact this
  | none =>
    rw [hf] at hout
    injection hout with hout
    have hnone := find_none_spec lines e.host hf
    unfold append_block at hout
    dsimp only [] at hout
    have hA : ∀ j, headerOpt
        (if !lines.isEmpty && !blank_at_end lines then lines ++ [[]] else lines) j
        ≠ some e.host := by
      intro j
      by_cases hsep : (!lines.isEmpty && !blank_at_end lines) = true
      · rw [if_pos hsep]
        by_cases hj : j < lines.length
        · rw [headerOpt_append_lt _ _ j hj]
          exact hnone j
        · rw [headerOpt_append_ge _ _ j (by omega)]
          rw [headerOpt_all_none [[]] (by
            intro l hl
            rw [List.mem_singleton.mp hl]
            exact host_name_from_line_nil) _]
          exact fun hc => Option.noConfusion hc
      · rw [if_neg hsep]
        exact hnone j
    have hcan := upsert_on_canonical
      (if !lines.isEmpty && !blank_at_end lines then lines ++ [[]] else lines) [] e
      ("Host ".toList ++ e.host) rest hv hA hhdr hrend hrest (Or.inl rfl)
    rw [List.append_nil] at hcan
    rw [← hout]
    exact hcan

theorem upsert_idempotent_amended_witness :
    upsert_host_entry_lines ["Host x".toList, "  HostName h".toList, []]
      { host := "x".toList, hostname := "h".toList }
      = .ok ["Host x".toList, "  HostName h".toList, []] :=
  upsert_idempotent_amended [] { host := "x".toList, hostname := "h".toList }
    ["Host x".toList, "  HostName h".toList, []]
    (by rfl) (by decide) (by decide)
    (fun l hl => absurd hl (List.not_mem_nil l)) (by rfl)

end SshTui
